import Mathlib

/-!
Verification of the text-trimmer library (`trimText`, `escapeRegExp`,
`highlightText` from `text-trimmer.js`) against its natural-language
specification.  The JavaScript source is shallowly embedded: strings are
`String`/`List Char`, JavaScript numbers are modelled by `JSNum`
(rationals extended with `nan` and the two infinities, enough to express
the comparisons and truthiness tests the source performs), option objects
are flat structures of optional fields, and thrown `TypeError`s become
`Except` errors.
-/

set_option maxRecDepth 8192

deriving instance DecidableEq for Except

/-- JavaScript number values as used by `trimText`: finite values are
modelled by rationals; `nan`, `posInf`, `negInf` model `NaN`, `Infinity`,
`-Infinity`.  Comparisons mirror IEEE semantics (`nan` compares false). -/
inductive JSNum where
  | nan : JSNum
  | finite (q : ℚ) : JSNum
  | posInf : JSNum
  | negInf : JSNum
deriving DecidableEq

namespace JSNum

/-- The JavaScript test `x <= 0` (false for `NaN`). -/
def le0 : JSNum → Bool
  | nan => false
  | finite q => decide (q ≤ 0)
  | posInf => false
  | negInf => true

/-- JavaScript truthiness of a number (`0` and `NaN` are falsy). -/
def truthy : JSNum → Bool
  | nan => false
  | finite q => decide (q ≠ 0)
  | posInf => true
  | negInf => true

/-- The JavaScript comparison `n <= x` for a (nonnegative integer)
length `n` against a number `x`. -/
def natLe (n : Nat) : JSNum → Bool
  | nan => false
  | finite q => decide ((n : ℚ) ≤ q)
  | posInf => true
  | negInf => false

/-- `x - n` for a number `x` and a nonnegative integer `n`
(as in `maxLength - ellipsis.length`).  The finite case computes the
difference `q - n = (q.num - n * q.den) / q.den` through `Rat.normalize`
(the subtraction instance of `ℚ` is irreducible, which would block
evaluation by `decide`); `subNat_finite` below proves this equal to the
ordinary rational subtraction. -/
def subNat (x : JSNum) (n : Nat) : JSNum :=
  match x with
  | nan => nan
  | finite q => finite (Rat.normalize (q.num - (n : Int) * (q.den : Int)) q.den q.den_nz)
  | posInf => posInf
  | negInf => negInf

/-- ECMAScript `ToIntegerOrInfinity` restricted to finite values:
truncation toward zero (`Int.tdiv` is T-division, which truncates toward
zero; the denominator of a rational is positive). -/
def trunc (q : ℚ) : Int :=
  Int.tdiv q.num q.den

/-- Whether a `JSNum` is a positive number in the ordinary sense
(`NaN` is not positive). -/
def isPos : JSNum → Bool
  | nan => false
  | finite q => decide (0 < q)
  | posInf => true
  | negInf => false

end JSNum

/-- `slice(0, x)` of JavaScript `String.prototype.slice` /
`Array.prototype.slice`: the end index is converted by
`ToIntegerOrInfinity` (`NaN` becomes `0`), a negative end counts back
from the end of the sequence, and the result is clamped to the
sequence. -/
def jsSliceTo (l : List α) (x : JSNum) : List α :=
  match x with
  | JSNum.nan => []
  | JSNum.posInf => l
  | JSNum.negInf => []
  | JSNum.finite q =>
      let e : Int := JSNum.trunc q
      let e' : Int := if e < 0 then (l.length : Int) + e else e
      l.take e'.toNat

/-- A JavaScript option-object field that `trimText` reads as a number:
absent (`undefined`), a number, or present with a non-number value. -/
inductive JOpt where
  | undef : JOpt
  | num (x : JSNum) : JOpt
  | nonNum : JOpt
deriving DecidableEq

namespace JOpt

/-- The validation test of `trimText`:
`v !== undefined && (typeof v !== 'number' || v <= 0)` throws, so a field
is valid when it is absent or a number that does not compare `<= 0`.
Note that `NaN` passes this test. -/
def valid : JOpt → Bool
  | undef => true
  | num x => !x.le0
  | nonNum => false

/-- JavaScript truthiness of the field (used by `if (!maxLength && !maxWords)`
and `if (maxWords)`).  `undefined` is falsy; for numbers `0` and `NaN` are
falsy; non-number values that reach a truthiness test are objects or
nonempty strings, which are truthy (they would already have thrown). -/
def truthy : JOpt → Bool
  | undef => false
  | num x => x.truthy
  | nonNum => true

/-- The numeric value of a field known to hold a number
(junk `nan` otherwise; only used under guards that ensure a number). -/
def numOf : JOpt → JSNum
  | num x => x
  | undef => JSNum.nan
  | nonNum => JSNum.nan

end JOpt

/-- The characters matched by the JavaScript regex class `\s`:
the ASCII whitespace characters, NBSP, the Unicode space separators,
the line and paragraph separators, and the BOM. -/
def isJsWs (c : Char) : Bool :=
  c = ' ' || c = '\t' || c = '\n' || c = '\x0b' || c = '\x0c' || c = '\r' ||
  c = '\u00A0' || c = '\u1680' ||
  (('\u2000' : Char) ≤ c && c ≤ ('\u200A' : Char)) ||
  c = '\u2028' || c = '\u2029' || c = '\u202F' || c = '\u205F' ||
  c = '\u3000' || c = '\uFEFF'

/-- `processedText.replace(/<[^>]+>/g, '')`: a match is a `<`, one or
more non-`>` characters, and a `>`; the leftmost such span is removed and
scanning resumes after it.  A `<` immediately followed by `>` or with no
closing `>` is kept. -/
def stripTags : List Char → List Char
  | [] => []
  | c :: rest =>
      if c = '<' then
        match h : rest.dropWhile (fun d => !(d = '>')) with
        | [] => c :: stripTags rest
        | _ :: after =>
            if rest.takeWhile (fun d => !(d = '>')) = [] then
              c :: stripTags rest
            else
              stripTags after
      else
        c :: stripTags rest
termination_by l => l.length
decreasing_by
  · simp only [List.length_cons]; omega
  · simp only [List.length_cons]; omega
  · have h1 : (rest.dropWhile (fun d => !(d = '>'))).length ≤ rest.length :=
      (List.dropWhile_sublist _).length_le
    rw [h] at h1
    simp only [List.length_cons] at h1 ⊢
    omega
  · simp only [List.length_cons]; omega

/-- Worker for `split(/\s+/)`: `acc` is the (reversed) piece being
built; `run` records whether the scan is inside a whitespace run (the
delimiter is a maximal run, so further whitespace characters extend the
current delimiter instead of emitting more pieces). -/
def splitWsAux : Bool → List Char → List Char → List (List Char)
  | _, [], acc => [acc.reverse]
  | run, c :: rest, acc =>
      if isJsWs c then
        if run then splitWsAux true rest []
        else acc.reverse :: splitWsAux true rest []
      else
        splitWsAux false rest (c :: acc)

/-- `processedText.split(/\s+/)`: split on maximal runs of whitespace.
A run at the start or at the end of the string contributes an empty
piece, as JavaScript `String.prototype.split` does. -/
def splitWs (l : List Char) : List (List Char) :=
  splitWsAux false l []

/-- `trimmedText.lastIndexOf(' ')`: the index of the last space character
(`none` models the JavaScript result `-1`). -/
def lastIdxSpace : List Char → Option Nat
  | [] => none
  | c :: rest =>
      match lastIdxSpace rest with
      | some i => some (i + 1)
      | none => if c = ' ' then some 0 else none

/-- The word-boundary backoff of `trimText`: cut at the last space
character if there is one, keep the list unchanged otherwise. -/
def spaceBackoff (l : List Char) : List Char :=
  match lastIdxSpace l with
  | some i => l.take i
  | none => l

/-- The error values `trimText` can throw: `TypeError('Input must be a
string')`, `TypeError('Max length must be a positive number')`,
`TypeError('Max words must be a positive number')`. -/
inductive TrimError where
  | invalidInput : TrimError
  | invalidMaxLength : TrimError
  | invalidMaxWords : TrimError
deriving DecidableEq

/-- A JavaScript value passed as the `text` argument: a string, or any
non-string value. -/
inductive JInput where
  | str (s : String) : JInput
  | nonStr : JInput
deriving DecidableEq

/-- The options object of `trimText`.  `none` on a field models an absent
(`undefined`) property, resolved to the documented default. -/
structure TrimOptions where
  maxLength : JOpt
  maxWords : JOpt
  ellipsis : Option String
  respectWordBoundaries : Option Bool
  stripHTML : Option Bool
deriving DecidableEq

/-- The embedding of `trimText(text, options)` from `text-trimmer.js`,
following the source statement by statement: input validation, option
validation, the no-limit short-circuit, optional HTML stripping, the
word-count branch, then the length branch with optional space backoff. -/
def trimText (text : JInput) (opts : TrimOptions) : Except TrimError String :=
  match text with
  | JInput.nonStr => Except.error TrimError.invalidInput
  | JInput.str t =>
      let ml := opts.maxLength
      let mw := opts.maxWords
      let ell := (opts.ellipsis.getD "...")
      let rwb := opts.respectWordBoundaries.getD true
      let sh := opts.stripHTML.getD false
      if !ml.valid then Except.error TrimError.invalidMaxLength
      else if !mw.valid then Except.error TrimError.invalidMaxWords
      else if !ml.truthy && !mw.truthy then Except.ok t
      else
        let p1 : List Char := if sh then stripTags t.data else t.data
        if mw.truthy then
          let words := splitWs p1
          if JSNum.natLe words.length mw.numOf then Except.ok ⟨p1⟩
          else Except.ok ⟨List.intercalate [' '] (jsSliceTo words mw.numOf) ++ ell.data⟩
        else
          if JSNum.natLe p1.length ml.numOf then Except.ok ⟨p1⟩
          else
            let tr := jsSliceTo p1 (ml.numOf.subNat ell.length)
            let tr2 := if rwb then spaceBackoff tr else tr
            Except.ok ⟨tr2 ++ ell.data⟩

/-- The characters escaped by `escapeRegExp`'s character class
`[.*+?^${}()|[\]\\]`. -/
def isRegexSpecial (c : Char) : Bool :=
  c = '.' || c = '*' || c = '+' || c = '?' || c = '^' || c = '$' ||
  c = '\x7b' || c = '\x7d' || c = '(' || c = ')' || c = '|' ||
  c = '[' || c = ']' || c = '\\'

/-- `string.replace(/[.*+?^${}()|[\]\\]/g, '\\$&')` on the character
list: every special character is replaced by a backslash followed by
itself (the class matches single characters, so the global replace is a
character-wise map). -/
def escapeChars : List Char → List Char
  | [] => []
  | c :: rest =>
      (if isRegexSpecial c then ['\\', c] else [c]) ++ escapeChars rest

/-- The embedding of `escapeRegExp(string)` from `text-trimmer.js`. -/
def escapeRegExp (s : String) : String :=
  ⟨escapeChars s.data⟩

/-- Interpretation of a regex fragment that consists only of literal
atoms: `\c` denotes the character `c`, a non-special character denotes
itself, and an unescaped special character (which would carry structural
meaning) makes the fragment fail to be a literal sequence.  A successful
parse means the fragment matches exactly the returned character
sequence and nothing else. -/
def parseLit : List Char → Option (List Char)
  | [] => some []
  | c :: rest =>
      if c = '\\' then
        match rest with
        | [] => none
        | d :: rest' => (parseLit rest').map (fun l => d :: l)
      else
        if isRegexSpecial c then none
        else (parseLit rest).map (fun l => c :: l)

/-- The options object of `highlightText`.  `none` on a field models an
absent (`undefined`) property, resolved to the documented default. -/
structure HOptions where
  highlightStart : Option String
  highlightEnd : Option String
  caseSensitive : Option Bool
  wholeWords : Option Bool
deriving DecidableEq

/-- The error `highlightText` can throw:
`TypeError('Input text must be a string')`. -/
inductive HError where
  | invalidInput : HError
deriving DecidableEq

/-- An element of the `terms` array: a string, or any non-string value
(which `highlightText` skips). -/
inductive JTerm where
  | str (s : String) : JTerm
  | nonStr : JTerm
deriving DecidableEq

/-- The `terms` argument of `highlightText`: a falsy non-string value
(`undefined`, `null`, ...), a single string, an array, or a truthy value
of any other type. -/
inductive TermsArg where
  | undef : TermsArg
  | single (s : String) : TermsArg
  | arr (l : List JTerm) : TermsArg
  | other : TermsArg
deriving DecidableEq

/-- The test `!terms` of `highlightText`: `undefined`/`null` and the
empty string are falsy. -/
def termsFalsy : TermsArg → Bool
  | TermsArg.undef => true
  | TermsArg.single s => decide (s = "")
  | TermsArg.arr _ => false
  | TermsArg.other => false

/-- The test `Array.isArray(terms) && terms.length === 0`. -/
def termsEmptyArr : TermsArg → Bool
  | TermsArg.arr l => decide (l = [])
  | _ => false

/-- `Array.isArray(terms) ? terms : [terms]`. -/
def termListOf : TermsArg → List JTerm
  | TermsArg.undef => []
  | TermsArg.single s => [JTerm.str s]
  | TermsArg.arr l => l
  | TermsArg.other => [JTerm.nonStr]

/-- The word characters of the JavaScript regex `\b` / `\w` semantics:
ASCII letters, digits, and underscore. -/
def isWordChar (c : Char) : Bool :=
  c.isAlpha || c.isDigit || c = '_'

/-- Word-character status of an optional character; the absence of a
character (start or end of the string) counts as a non-word position. -/
def isWordOpt : Option Char → Bool
  | none => false
  | some c => isWordChar c

/-- `\b` holds between two (optional) characters when exactly one side
is a word character. -/
def boundaryB (a b : Option Char) : Bool :=
  isWordOpt a != isWordOpt b

/-- Character comparison under the `i` flag: when `ci` is true the
comparison is case-insensitive (modelled by lower-casing both sides). -/
def ciCharEq (ci : Bool) (a b : Char) : Bool :=
  if ci then a.toLower = b.toLower else a = b

/-- Whether the (escaped, hence literal) pattern `pat` matches at the
start of `s`, character-wise, under the case-sensitivity mode `ci`. -/
def ciLeads (ci : Bool) : List Char → List Char → Bool
  | [], _ => true
  | _ :: _, [] => false
  | a :: pat, b :: s => ciCharEq ci a b && ciLeads ci pat s

/-- Whether the regex built for the term `t0 :: ts` matches at the
current position: the literal characters must match, and when
`wholeWords` is set the two `\b` anchors must hold — `prev` is the
character just before the position, and the anchors compare word-ness of
the neighbouring characters of the matched span. -/
def matchCond (ci wb : Bool) (t0 : Char) (ts : List Char) (prev : Option Char)
    (s : List Char) : Bool :=
  ciLeads ci (t0 :: ts) s &&
  (!wb || boundaryB prev s.head?) &&
  (!wb || boundaryB ((s.take (ts.length + 1)).getLast?) ((s.drop (ts.length + 1)).head?))

/-- The scan of `result.replace(regex, hs + '$&' + he)` for one term
`t0 :: ts`: at each position, if the regex matches, the matched span —
the actual characters of `s`, as `$&` — is wrapped and scanning resumes
after it; otherwise the character is kept and the scan moves on.  `prev`
is the character preceding the current position in `s` (for the left
`\b` anchor). -/
def replaceScan (ci wb : Bool) (t0 : Char) (ts hs he : List Char) :
    Option Char → List Char → List Char
  | _, [] => []
  | prev, c :: rest =>
      if matchCond ci wb t0 ts prev (c :: rest) then
        hs ++ (c :: rest).take (ts.length + 1) ++ he ++
          replaceScan ci wb t0 ts hs he ((c :: rest).take (ts.length + 1)).getLast?
            ((c :: rest).drop (ts.length + 1))
      else
        c :: replaceScan ci wb t0 ts hs he (some c) rest
termination_by _ s => s.length
decreasing_by
  · simp only [List.length_drop, List.length_cons]; omega
  · simp only [List.length_cons]; omega

/-- Whether the regex built for the term `t0 :: ts` matches anywhere in
`s`, scanning with the same match condition as `replaceScan`. -/
def occursScan (ci wb : Bool) (t0 : Char) (ts : List Char) :
    Option Char → List Char → Bool
  | _, [] => false
  | prev, c :: rest =>
      if matchCond ci wb t0 ts prev (c :: rest) then true
      else occursScan ci wb t0 ts (some c) rest
termination_by _ s => s.length
decreasing_by
  · simp only [List.length_cons]; omega

/-- One iteration of the `termList.forEach` loop of `highlightText`:
non-string and empty terms are skipped, otherwise the accumulated result
is globally find-and-replaced. -/
def hstep (ci wb : Bool) (hs he : List Char) (acc : List Char) (tm : JTerm) :
    List Char :=
  match tm with
  | JTerm.nonStr => acc
  | JTerm.str s =>
      match s.data with
      | [] => acc
      | t0 :: ts => replaceScan ci wb t0 ts hs he none acc

/-- The body of `highlightText` on a string input: the falsy/empty-array
short-circuit, option defaulting, then the left-to-right fold of the
per-term replacement over the accumulated result. -/
def highlightCore (t : String) (terms : TermsArg) (opts : HOptions) : String :=
  if termsFalsy terms || termsEmptyArr terms then t
  else
    let hs := (opts.highlightStart.getD "<mark>").data
    let he := (opts.highlightEnd.getD "</mark>").data
    let ci := !(opts.caseSensitive.getD false)
    let wb := opts.wholeWords.getD false
    ⟨(termListOf terms).foldl (hstep ci wb hs he) t.data⟩

/-- The embedding of `highlightText(text, terms, options)` from
`text-trimmer.js`. -/
def highlightText (text : JInput) (terms : TermsArg) (opts : HOptions) :
    Except HError String :=
  match text with
  | JInput.nonStr => Except.error HError.invalidInput
  | JInput.str t => Except.ok (highlightCore t terms opts)

/-- Sanity: the `Rat.normalize` implementation of `subNat` computes the
ordinary rational subtraction `q - n`. -/
theorem JSNum.subNat_finite (q : ℚ) (n : Nat) :
    JSNum.subNat (JSNum.finite q) n = JSNum.finite (q - n) := by
  unfold JSNum.subNat
  rw [Rat.sub_def]
  simp [Rat.normalize]

/-- The working text of the trimmer: the input after the optional HTML
stripping (spec §4.1 / glossary). -/
def workingText (sh : Option Bool) (t : String) : List Char :=
  if sh.getD false then stripTags t.data else t.data

/-- Modelled from the spec's description of word-count mode, §4.1 step 3:
split the working text on runs of whitespace; if the resulting word count
is at most `maxWords`, return the working text unchanged; otherwise join
the first `maxWords` words with single spaces and append the ellipsis
marker. -/
def wordModeSpec (ell : String) (m : Nat) (wt : List Char) : String :=
  if (splitWs wt).length ≤ m then ⟨wt⟩
  else ⟨List.intercalate [' '] ((splitWs wt).take m) ++ ell.data⟩

/-- Whether the pattern built for one term matches anywhere in `text`
under the given case-sensitivity mode and whole-word flag (false for the
skipped non-string and empty terms, which never match). -/
def termHits (ci wb : Bool) (tm : JTerm) (text : List Char) : Bool :=
  match tm with
  | JTerm.nonStr => false
  | JTerm.str s =>
      match s.data with
      | [] => false
      | t0 :: ts => occursScan ci wb t0 ts none text

/-- Case-insensitive equality of two character sequences (the
canonicalisation of the `i` flag, modelled by lower-casing). -/
def ciEqList (a b : List Char) : Bool :=
  decide (a.map Char.toLower = b.map Char.toLower)

/-- C1: the spec claims the `trimText` output length is at most
`maxLength` for every ellipsis, including `ellipsis.length >= maxLength`.
The code violates this: with `maxLength = 2` and the default three-
character ellipsis, the slice end `2 - 3 = -1` counts back from the end
of the string (JavaScript slice semantics), keeping a seven-character
prefix of the eight-character input, so the result has length 10 > 2 —
contradicting the source's own documentation of `maxLength` as "the
maximum length of the trimmed text (including ellipsis)". -/
theorem trimText_maxLength_exceeded_eval :
    trimText (JInput.str "abcdefgh")
        ⟨JOpt.num (JSNum.finite 2), JOpt.undef, none, none, none⟩ =
      Except.ok "abcdefg..." ∧
    ("abcdefg..." : String).length = 10 := by
  decide

/-- C2: with both `maxLength` and `maxWords` absent, `trimText` returns
the input unchanged for every ellipsis, `respectWordBoundaries`, and
`stripHTML` setting — in particular HTML stripping is never applied when
no limit is requested. -/
theorem trimText_no_limits_identity (t : String) (e : Option String)
    (r sh : Option Bool) :
    trimText (JInput.str t) ⟨JOpt.undef, JOpt.undef, e, r, sh⟩ = Except.ok t :=
  rfl

/-- C4 counterexample: the claim says length-mode backoff cuts at the
last whitespace character of the prefix.  The code uses
`lastIndexOf(' ')`, which only finds the space character: on a prefix
whose only whitespace is a tab, no backoff happens, so the output is
"ab\tcdef..." instead of the "ab..." the claim requires (the tab is
whitespace, as the third conjunct records). -/
theorem trimText_tab_not_whitespace_backoff :
    trimText (JInput.str "ab\tcdefghijk")
        ⟨JOpt.num (JSNum.finite 10), JOpt.undef, none, none, none⟩ =
      Except.ok "ab\tcdef..." ∧
    isJsWs '\t' = true ∧
    ("ab\tcdef..." : String) ≠ "ab..." := by
  decide

/-- C5 counterexample: the claim says adding leading whitespace does not
change the word count `trimText` measures against `maxWords`.  It does:
`split(/\s+/)` produces a leading empty piece, so " a b c" counts four
words while "a b c" counts three, and with `maxWords = 3` the two inputs
are trimmed differently. -/
theorem splitWs_leading_ws_changes_count :
    (splitWs " a b c".data).length = 4 ∧
    (splitWs "a b c".data).length = 3 ∧
    trimText (JInput.str " a b c")
        ⟨JOpt.undef, JOpt.num (JSNum.finite 3), none, none, none⟩ =
      Except.ok " a b..." ∧
    trimText (JInput.str "a b c")
        ⟨JOpt.undef, JOpt.num (JSNum.finite 3), none, none, none⟩ =
      Except.ok "a b c" := by
  decide

/-- C6 counterexample: the claim says `trimText` raises `InvalidOption`
whenever `maxLength` is present but not a positive number.  `NaN` is
present and not a positive number, yet the validation test
`typeof v !== 'number' || v <= 0` does not fire for it (`NaN <= 0` is
false), and the falsy check then treats it as absent: the call
succeeds. -/
theorem trimText_nan_passes_validation :
    JSNum.isPos JSNum.nan = false ∧
    trimText (JInput.str "abc")
        ⟨JOpt.num JSNum.nan, JOpt.undef, none, none, none⟩ =
      Except.ok "abc" := by
  decide

/-- C9 counterexample: the claim says a whole-words match is bounded by
whitespace-delimited break points, so "cat" must not be wrapped inside
the single whitespace-delimited word "cat-dog".  The regex `\b` anchors
are word-character boundaries, not whitespace boundaries: the hyphen is a
non-word character, so "cat" is wrapped. -/
theorem highlightText_wholeWords_punctuation :
    highlightText (JInput.str "cat-dog") (TermsArg.single "cat")
        ⟨none, none, none, some true⟩ =
      Except.ok "<mark>cat</mark>-dog" ∧
    (∀ c ∈ "cat-dog".data, isJsWs c = false) ∧
    ("<mark>cat</mark>-dog" : String) ≠ "cat-dog" := by
  refine ⟨?_, by decide, by decide⟩
  simp [highlightText, highlightCore, termsFalsy, termsEmptyArr, termListOf,
    hstep, replaceScan, matchCond, ciLeads, ciCharEq, boundaryB, isWordOpt,
    isWordChar]

/-- The JavaScript comparison `n <= m` for natural `n` against the
number value of a natural `m` is the ordinary comparison. -/
theorem JSNum.natLe_natCast (k m : ℕ) :
    JSNum.natLe k (JSNum.finite m) = decide (k ≤ m) := by
  simp [JSNum.natLe]

/-- `slice(0, m)` for a natural end index `m` is `take m`. -/
theorem jsSliceTo_natCast (l : List α) (m : ℕ) :
    jsSliceTo l (JSNum.finite m) = l.take m := by
  simp only [jsSliceTo, JSNum.trunc, Rat.num_natCast, Rat.den_natCast,
    Nat.cast_one, Int.tdiv_one]
  have h1 : ¬ ((m : Int) < 0) := by omega
  rw [if_neg h1]
  simp

/-- A positive natural is a valid and truthy `maxWords`/`maxLength`
field. -/
theorem JOpt.valid_truthy_of_pos (m : ℕ) (hm : 0 < m) :
    (JOpt.num (JSNum.finite m)).valid = true ∧
    (JOpt.num (JSNum.finite m)).truthy = true := by
  constructor
  · simp [JOpt.valid, JSNum.le0]
    omega
  · simp [JOpt.truthy, JSNum.truthy]
    omega

/-- C3: with `maxWords` a positive number, `trimText` operates in
word-count mode as the spec describes it (`wordModeSpec`), for every
valid `maxLength` (word-count mode takes priority) and every
`respectWordBoundaries` setting (which has no effect in this mode). -/
theorem trimText_word_mode (t : String) (ml : JOpt) (m : ℕ) (e : Option String)
    (r sh : Option Bool) (hml : ml.valid = true) (hm : 0 < m) :
    trimText (JInput.str t) ⟨ml, JOpt.num (JSNum.finite m), e, r, sh⟩ =
      Except.ok (wordModeSpec (e.getD "...") m (workingText sh t)) := by
  obtain ⟨hv, ht⟩ := JOpt.valid_truthy_of_pos m hm
  unfold trimText wordModeSpec workingText
  simp only [hml, hv, ht, JSNum.natLe_natCast, jsSliceTo_natCast, JOpt.numOf,
    Bool.not_true, Bool.and_false, Bool.false_and, if_false,
    Bool.false_eq_true, decide_eq_true_eq, if_true, apply_ite Except.ok]

/-- C3 witness: the spec's own example,
`trim("a b c d e", {maxWords: 3})` = `"a b c" + ellipsis`. -/
theorem trimText_word_mode_example :
    trimText (JInput.str "a b c d e")
        ⟨JOpt.undef, JOpt.num (JSNum.finite ((3 : ℕ) : ℚ)), none, none, none⟩ =
      Except.ok "a b c..." :=
  (trimText_word_mode "a b c d e" JOpt.undef 3 none none none (by decide)
    (by decide)).trans (by decide)

/-- C4 (amended): in length mode with `respectWordBoundaries` resolving
to true and the working text longer than `maxLength`, the result is the
prefix `slice(0, maxLength - ellipsis.length)` (JavaScript slice
semantics: a negative end counts back from the end), backed off to the
last space character — other whitespace does not trigger backoff, and
the full prefix is kept when it contains no space — with the ellipsis
appended. -/
theorem trimText_length_mode_space_backoff (t : String) (q : ℚ)
    (e : Option String) (r sh : Option Bool) (hq : 0 < q)
    (hr : r.getD true = true)
    (hlong : ¬ (((workingText sh t).length : ℚ) ≤ q)) :
    trimText (JInput.str t) ⟨JOpt.num (JSNum.finite q), JOpt.undef, e, r, sh⟩ =
      Except.ok ⟨spaceBackoff (jsSliceTo (workingText sh t)
          ((JSNum.finite q).subNat (e.getD "...").length)) ++
        (e.getD "...").data⟩ := by
  have hv : (JOpt.num (JSNum.finite q)).valid = true := by
    simp [JOpt.valid, JSNum.le0]
    exact hq
  have ht : (JOpt.num (JSNum.finite q)).truthy = true := by
    simp [JOpt.truthy, JSNum.truthy]
    exact ne_of_gt hq
  have hle : JSNum.natLe (workingText sh t).length (JSNum.finite q) = false := by
    simp only [JSNum.natLe, decide_eq_false_iff_not]
    exact hlong
  have hvu : JOpt.undef.valid = true := rfl
  have htu : JOpt.undef.truthy = false := rfl
  unfold trimText
  unfold workingText at hle ⊢
  simp only [hv, ht, hle, hr, hvu, htu, JOpt.numOf, Bool.not_true,
    Bool.not_false, Bool.and_false, Bool.false_and, Bool.and_true,
    Bool.false_eq_true, if_false, if_true]

/-- C4 witness: the spec's own example, `trim("hello world foo",
{maxLength: 10})` backs off to the last space before index `10 - 3` and
yields `"hello..."`. -/
theorem trimText_length_mode_space_backoff_example :
    trimText (JInput.str "hello world foo")
        ⟨JOpt.num (JSNum.finite 10), JOpt.undef, none, none, none⟩ =
      Except.ok "hello..." :=
  (trimText_length_mode_space_backoff "hello world foo" 10 none none none
    (by norm_num) (by decide) (by decide)).trans (by decide)

/-- Every branch of `trimText` past the two validation checks succeeds
with an `ok` result. -/
theorem trimText_ok_shape (t : String) (opts : TrimOptions)
    (h1 : opts.maxLength.valid = true) (h2 : opts.maxWords.valid = true) :
    ∃ s, trimText (JInput.str t) opts = Except.ok s := by
  unfold trimText
  simp only [h1, h2, Bool.not_true, Bool.false_eq_true, if_false]
  repeat' split
  all_goals exact ⟨_, rfl⟩

/-- C6 (amended): `trimText` raises `InvalidInput` exactly when the text
argument is not a string; given a string, it raises an option error
exactly when `maxLength` or `maxWords` fails the source's validation test
`typeof v !== 'number' || v <= 0` — present non-numbers and numbers
comparing `<= 0` fail, while `NaN` passes (it compares false) and is then
treated as absent; in all other cases the call succeeds with a string. -/
theorem trimText_validation_behavior (text : JInput) (opts : TrimOptions) :
    (trimText text opts = Except.error TrimError.invalidInput ↔
      text = JInput.nonStr) ∧
    ((trimText text opts = Except.error TrimError.invalidMaxLength ∨
      trimText text opts = Except.error TrimError.invalidMaxWords) ↔
      (text ≠ JInput.nonStr ∧
        (opts.maxLength.valid = false ∨ opts.maxWords.valid = false))) ∧
    (text ≠ JInput.nonStr → opts.maxLength.valid = true →
      opts.maxWords.valid = true →
      ∃ s, trimText text opts = Except.ok s) := by
  cases text with
  | nonStr =>
      refine ⟨by simp [trimText], by simp [trimText], ?_⟩
      intro h
      exact absurd rfl h
  | str t =>
      by_cases h1 : opts.maxLength.valid = true
      · by_cases h2 : opts.maxWords.valid = true
        · obtain ⟨s, hs⟩ := trimText_ok_shape t opts h1 h2
          refine ⟨by simp [hs], by simp [hs, h1, h2], ?_⟩
          intro _ _ _
          exact ⟨s, hs⟩
        · have h2' : opts.maxWords.valid = false := by
            simpa using h2
          have herr : trimText (JInput.str t) opts =
              Except.error TrimError.invalidMaxWords := by
            unfold trimText
            simp [h1, h2']
          refine ⟨by simp [herr], by simp [herr, h2'], ?_⟩
          intro _ _ hmw
          exact absurd hmw h2
      · have h1' : opts.maxLength.valid = false := by
          simpa using h1
        have herr : trimText (JInput.str t) opts =
            Except.error TrimError.invalidMaxLength := by
          unfold trimText
          simp [h1']
        refine ⟨by simp [herr], by simp [herr, h1'], ?_⟩
        intro _ hml _
        exact absurd hml h1

/-- C6 witness: a present non-number `maxLength` on a string input is
rejected with an option error. -/
theorem trimText_validation_behavior_example :
    trimText (JInput.str "ab")
        ⟨JOpt.nonNum, JOpt.undef, none, none, none⟩ =
      Except.error TrimError.invalidMaxLength ∨
    trimText (JInput.str "ab")
        ⟨JOpt.nonNum, JOpt.undef, none, none, none⟩ =
      Except.error TrimError.invalidMaxWords :=
  ((trimText_validation_behavior (JInput.str "ab")
      ⟨JOpt.nonNum, JOpt.undef, none, none, none⟩).2.1).mpr
    ⟨by decide, Or.inl (by decide)⟩

/-- C7: the pattern `escapeRegExp` builds from any string is a sequence
of literal atoms whose denotation is exactly that string: every special
character is escaped (an unescaped special would make `parseLit` fail),
so a search pattern built from the output matches the literal input and
nothing else.  The function is a total function on strings. -/
theorem escapeRegExp_literal_pattern (s : String) :
    parseLit (escapeRegExp s).data = some s.data := by
  show parseLit (escapeChars s.data) = some s.data
  induction s.data with
  | nil => rfl
  | cons c rest ih =>
      by_cases hc : isRegexSpecial c = true
      · simp [escapeChars, hc, parseLit, ih]
      · have hb : ¬(c = '\\') := by
          intro h
          rw [h] at hc
          exact hc rfl
        have he : escapeChars (c :: rest) = c :: escapeChars rest := by
          simp [escapeChars, hc]
        rw [he, parseLit.eq_def]
        simp only []
        rw [if_neg hb, if_neg hc, ih]
        rfl

/-- The non-short-circuit case of `highlightCore` on an array is the
left fold of the per-term replacement, starting from the input text
(also valid for the empty array, where the short-circuit returns the
text and the fold is trivial). -/
theorem highlightCore_arr (t : String) (l : List JTerm) (opts : HOptions) :
    highlightCore t (TermsArg.arr l) opts =
      ⟨l.foldl (hstep (!(opts.caseSensitive.getD false))
          (opts.wholeWords.getD false)
          (opts.highlightStart.getD "<mark>").data
          (opts.highlightEnd.getD "</mark>").data) t.data⟩ := by
  cases l with
  | nil => rfl
  | cons a l' =>
      simp [highlightCore, termsFalsy, termsEmptyArr, termListOf]

/-- C8: `highlightText` is a left-to-right fold over the term sequence
on the accumulated result: highlighting `l1 ++ l2` equals highlighting
`l1` and then applying the remaining terms to that output (so earlier
terms' inserted markers are visible to later terms' matching); a single
string argument behaves as the one-element array; non-string and empty
terms are skipped as identity steps. -/
theorem highlightText_sequential_fold (opts : HOptions) :
    (∀ (t : String) (l1 l2 : List JTerm),
      highlightText (JInput.str t) (TermsArg.arr (l1 ++ l2)) opts =
        highlightText (JInput.str (highlightCore t (TermsArg.arr l1) opts))
          (TermsArg.arr l2) opts) ∧
    (∀ (t s : String),
      highlightText (JInput.str t) (TermsArg.single s) opts =
        highlightText (JInput.str t) (TermsArg.arr [JTerm.str s]) opts) ∧
    (∀ (t : String) (l : List JTerm),
      highlightText (JInput.str t) (TermsArg.arr (JTerm.nonStr :: l)) opts =
        highlightText (JInput.str t) (TermsArg.arr l) opts) ∧
    (∀ (t : String) (l : List JTerm),
      highlightText (JInput.str t) (TermsArg.arr (JTerm.str "" :: l)) opts =
        highlightText (JInput.str t) (TermsArg.arr l) opts) := by
  refine ⟨?_, ?_, ?_, ?_⟩
  · intro t l1 l2
    simp [highlightText, highlightCore_arr, List.foldl_append]
  · intro t s
    by_cases hs : s = ""
    · subst hs
      simp [highlightText, highlightCore, highlightCore_arr, termsFalsy,
        termsEmptyArr, termListOf, hstep]
    · simp [highlightText, highlightCore, termsFalsy, termsEmptyArr,
        termListOf, hs]
  · intro t l
    simp [highlightText, highlightCore_arr, hstep]
  · intro t l
    simp [highlightText, highlightCore_arr, hstep]

/-- If the pattern for a term matches nowhere in `s` (scanning from the
same state), the global replace leaves `s` unchanged. -/
theorem replaceScan_no_match (ci wb : Bool) (t0 : Char) (ts hs he : List Char) :
    ∀ (s : List Char) (prev : Option Char),
      occursScan ci wb t0 ts prev s = false →
      replaceScan ci wb t0 ts hs he prev s = s := by
  intro s
  induction s with
  | nil =>
      intro prev _
      simp [replaceScan]
  | cons c rest ih =>
      intro prev h
      rw [occursScan] at h
      by_cases hc : matchCond ci wb t0 ts prev (c :: rest) = true
      · rw [if_pos hc] at h
        exact absurd h (by simp)
      · rw [if_neg hc] at h
        rw [replaceScan, if_neg hc, ih (some c) h]

/-- A fold of no-op replacement steps is the identity. -/
theorem foldl_hstep_id (ci wb : Bool) (hs he base : List Char) :
    ∀ l : List JTerm, (∀ tm ∈ l, termHits ci wb tm base = false) →
      l.foldl (hstep ci wb hs he) base = base := by
  intro l
  induction l with
  | nil =>
      intro _
      rfl
  | cons a l' ih =>
      intro h
      have ha := h a (by simp)
      have hid : hstep ci wb hs he base a = base := by
        cases a with
        | nonStr => rfl
        | str s =>
            cases hds : s.data with
            | nil => simp [hstep, hds]
            | cons t0 ts =>
                simp only [termHits, hds] at ha
                simp [hstep, hds, replaceScan_no_match ci wb t0 ts hs he base none ha]
      rw [List.foldl_cons, hid]
      exact ih (fun tm hm => h tm (by simp [hm]))

/-- C10: when no term that survives the skipping matches anywhere in the
text under the resolved case-sensitivity and whole-word settings, every
replacement pass is an identity step of the fold and `highlightText`
returns the text unchanged. -/
theorem highlightText_no_match_identity (t : String) (terms : TermsArg)
    (opts : HOptions)
    (h : ∀ tm ∈ termListOf terms,
      termHits (!(opts.caseSensitive.getD false)) (opts.wholeWords.getD false)
        tm t.data = false) :
    highlightText (JInput.str t) terms opts = Except.ok t := by
  cases terms with
  | undef => rfl
  | other => rfl
  | single s =>
      by_cases hs : s = ""
      · subst hs
        rfl
      · show Except.ok (highlightCore t (TermsArg.single s) opts) = Except.ok t
        simp only [highlightCore, termsFalsy, termsEmptyArr, hs,
          decide_eq_true_eq, Bool.or_false, if_false, termListOf]
        simp only [termListOf] at h
        rw [foldl_hstep_id _ _ _ _ _ _ h]
  | arr l =>
      show Except.ok (highlightCore t (TermsArg.arr l) opts) = Except.ok t
      rw [highlightCore_arr]
      simp only [termListOf] at h
      rw [foldl_hstep_id _ _ _ _ _ _ h]

/-- C10 witness: neither "xyz" (no occurrence) nor a non-string term
changes "hello". -/
theorem highlightText_no_match_identity_example :
    highlightText (JInput.str "hello")
        (TermsArg.arr [JTerm.str "xyz", JTerm.nonStr])
        ⟨none, none, none, none⟩ =
      Except.ok "hello" := by
  refine highlightText_no_match_identity "hello" _ _ ?_
  intro tm hm
  simp only [termListOf, List.mem_cons, List.not_mem_nil, or_false] at hm
  rcases hm with rfl | rfl
  · simp [termHits, occursScan, matchCond, ciLeads, ciCharEq]
  · rfl

/-- Inserting an extra whitespace character directly before an existing
whitespace character does not change the split: the two characters
belong to the same delimiter run. -/
theorem splitWsAux_insert (c₁ c₂ : Char) (h1 : isJsWs c₁ = true)
    (h2 : isJsWs c₂ = true) (v : List Char) :
    ∀ (u : List Char) (run : Bool) (acc : List Char),
      splitWsAux run (u ++ c₁ :: c₂ :: v) acc =
        splitWsAux run (u ++ c₂ :: v) acc := by
  intro u
  induction u with
  | nil =>
      intro run acc
      cases run <;> simp [splitWsAux, h1, h2]
  | cons d u' ih =>
      intro run acc
      by_cases hd : isJsWs d = true
      · cases run <;> simp [splitWsAux, hd, ih]
      · simp [splitWsAux, hd, ih]

/-- When the next character is not whitespace (or the input is empty),
being inside a whitespace run makes no difference to the split worker. -/
theorem splitWsAux_run_of_head_not_ws (s : List Char) (acc : List Char)
    (hs : s.head?.all (fun d => !isJsWs d) = true) :
    splitWsAux true s acc = splitWsAux false s acc := by
  cases s with
  | nil => rfl
  | cons d rest =>
      have hd : isJsWs d = false := by
        simpa using hs
      simp [splitWsAux, hd]

/-- A leading whitespace character adds one (empty) piece to the split
of a string that does not itself start with whitespace. -/
theorem splitWs_leading (c : Char) (s : List Char) (hc : isJsWs c = true)
    (hs : s.head?.all (fun d => !isJsWs d) = true) :
    splitWs (c :: s) = [] :: splitWs s := by
  unfold splitWs
  simp only [splitWsAux, hc, if_true, Bool.false_eq_true, if_false,
    List.reverse_nil]
  rw [splitWsAux_run_of_head_not_ws s [] hs]

/-- One-step equation: a whitespace character inside a run just extends
the delimiter. -/
theorem splitWsAux_ws_true (d : Char) (rest acc : List Char)
    (hd : isJsWs d = true) :
    splitWsAux true (d :: rest) acc = splitWsAux true rest [] := by
  simp [splitWsAux, hd]

/-- One-step equation: a whitespace character outside a run emits the
current piece and opens a delimiter run. -/
theorem splitWsAux_ws_false (d : Char) (rest acc : List Char)
    (hd : isJsWs d = true) :
    splitWsAux false (d :: rest) acc =
      acc.reverse :: splitWsAux true rest [] := by
  simp [splitWsAux, hd]

/-- One-step equation: a non-whitespace character extends the current
piece and closes any delimiter run. -/
theorem splitWsAux_not_ws (run : Bool) (d : Char) (rest acc : List Char)
    (hd : isJsWs d = false) :
    splitWsAux run (d :: rest) acc = splitWsAux false rest (d :: acc) := by
  cases run <;> simp [splitWsAux, hd]

/-- Appending a whitespace character adds exactly one (empty) piece to
the length of the split, for inputs that do not already end in
whitespace (the `run`/empty side condition threads the invariant through
the worker's recursion). -/
theorem splitWsAux_append_ws (c : Char) (hc : isJsWs c = true) :
    ∀ (s : List Char) (run : Bool) (acc : List Char),
      ((s.getLast?.all (fun d => !isJsWs d) = true ∧ s ≠ []) ∨
        (s = [] ∧ run = false)) →
      (splitWsAux run (s ++ [c]) acc).length =
        (splitWsAux run s acc).length + 1 := by
  intro s
  induction s with
  | nil =>
      intro run acc hyp
      have hrun : run = false := by
        rcases hyp with ⟨_, hne⟩ | ⟨_, hr⟩
        · exact absurd rfl hne
        · exact hr
      subst hrun
      simp [splitWsAux, hc]
  | cons d rest ih =>
      intro run acc hyp
      have hlast : (d :: rest).getLast?.all (fun x => !isJsWs x) = true := by
        rcases hyp with ⟨hl, _⟩ | ⟨hne, _⟩
        · exact hl
        · cases hne
      cases rest with
      | nil =>
          have hd : isJsWs d = false := by
            simpa using hlast
          cases run <;> simp [splitWsAux, hd, hc]
      | cons e rest' =>
          have hlast' : (e :: rest').getLast?.all (fun x => !isJsWs x) = true := by
            simpa [List.getLast?_cons_cons] using hlast
          by_cases hd : isJsWs d = true
          · cases run with
            | true =>
                rw [List.cons_append, splitWsAux_ws_true d _ acc hd,
                  splitWsAux_ws_true d _ acc hd]
                exact ih true [] (Or.inl ⟨hlast', by simp⟩)
            | false =>
                rw [List.cons_append, splitWsAux_ws_false d _ acc hd,
                  splitWsAux_ws_false d _ acc hd]
                simp only [List.length_cons]
                have hlen := ih true [] (Or.inl ⟨hlast', by simp⟩)
                omega
          · have hd' : isJsWs d = false := by
              simpa using hd
            rw [List.cons_append, splitWsAux_not_ws run d _ acc hd',
              splitWsAux_not_ws run d _ acc hd']
            exact ih false (d :: acc) (Or.inl ⟨hlast', by simp⟩)

/-- A trailing whitespace character adds one (empty) piece to the length
of the split of a string that does not already end with whitespace. -/
theorem splitWs_trailing (c : Char) (s : List Char) (hc : isJsWs c = true)
    (hs : s.getLast?.all (fun d => !isJsWs d) = true) :
    (splitWs (s ++ [c])).length = (splitWs s).length + 1 := by
  by_cases hse : s = []
  · subst hse
    simp [splitWs, splitWsAux, hc]
  · exact splitWsAux_append_ws c hc s false [] (Or.inl ⟨hs, hse⟩)

/-- C5 (amended): the whitespace splitting uses one-or-more whitespace
characters as the delimiter, so widening an inter-word gap by an extra
whitespace character never changes the split; but a delimiter run at the
start or at the end of the string contributes an empty piece, so leading
or trailing whitespace increases the word count `trimText` measures
against `maxWords` by one (it does not leave it unchanged). -/
theorem splitWs_gap_and_edges :
    (∀ (u v : List Char) (c₁ c₂ : Char), isJsWs c₁ = true → isJsWs c₂ = true →
      splitWs (u ++ c₁ :: c₂ :: v) = splitWs (u ++ c₂ :: v)) ∧
    (∀ (c : Char) (s : List Char), isJsWs c = true →
      s.head?.all (fun d => !isJsWs d) = true →
      (splitWs (c :: s)).length = (splitWs s).length + 1) ∧
    (∀ (c : Char) (s : List Char), isJsWs c = true →
      s.getLast?.all (fun d => !isJsWs d) = true →
      (splitWs (s ++ [c])).length = (splitWs s).length + 1) := by
  refine ⟨?_, ?_, ?_⟩
  · intro u v c₁ c₂ h1 h2
    exact splitWsAux_insert c₁ c₂ h1 h2 v u false []
  · intro c s hc hs
    rw [splitWs_leading c s hc hs]
    rfl
  · intro c s hc hs
    exact splitWs_trailing c s hc hs

/-- C5 witness: concrete instances — widening the gap of "a b" to
"a  b" leaves the split unchanged, while a leading or trailing space on
"a" adds one to the piece count. -/
theorem splitWs_gap_and_edges_example :
    splitWs (['a'] ++ ' ' :: ' ' :: ['b']) = splitWs (['a'] ++ ' ' :: ['b']) ∧
    (splitWs (' ' :: ['a'])).length = (splitWs ['a']).length + 1 ∧
    (splitWs (['a'] ++ [' '])).length = (splitWs ['a']).length + 1 :=
  ⟨splitWs_gap_and_edges.1 ['a'] ['b'] ' ' ' ' (by decide) (by decide),
   splitWs_gap_and_edges.2.1 ' ' ['a'] (by decide) (by decide),
   splitWs_gap_and_edges.2.2 ' ' ['a'] (by decide) (by decide)⟩

/-- A literal pattern can only match at the start of a string at least
as long as it. -/
theorem ciLeads_length (ci : Bool) :
    ∀ (pat s : List Char), ciLeads ci pat s = true → pat.length ≤ s.length := by
  intro pat
  induction pat with
  | nil =>
      intro s _
      simp
  | cons a pat' ih =>
      intro s h
      cases s with
      | nil => simp [ciLeads] at h
      | cons b s' =>
          simp only [ciLeads, Bool.and_eq_true] at h
          have := ih s' h.2
          simp only [List.length_cons]
          omega

/-- The last element of a nonempty list of word characters is a word
position. -/
theorem isWordOpt_getLast?_allWord (l : List Char) (hne : l ≠ [])
    (hw : ∀ c ∈ l, isWordChar c = true) : isWordOpt l.getLast? = true := by
  rw [List.getLast?_eq_getLast l hne]
  exact hw _ (List.getLast_mem hne)

/-- When the previous character is a word character and the rest of the
string consists of word characters, a whole-words scan can never match:
the left `\b` anchor fails at every position. -/
theorem replaceScan_wordPrev_id (ci : Bool) (t0 : Char) (ts hs he : List Char) :
    ∀ (s : List Char) (p : Char), (∀ c ∈ s, isWordChar c = true) →
      isWordChar p = true →
      replaceScan ci true t0 ts hs he (some p) s = s := by
  intro s
  induction s with
  | nil =>
      intro p _ _
      simp [replaceScan]
  | cons c rest ih =>
      intro p hw hp
      have hc : isWordChar c = true := hw c (by simp)
      have hm : matchCond ci true t0 ts (some p) (c :: rest) = false := by
        simp [matchCond, boundaryB, isWordOpt, hp, hc]
      simp only [replaceScan]
      rw [if_neg (by simp [hm])]
      rw [ih c (fun d hd => hw d (by simp [hd])) hc]

/-- On a string made entirely of word characters, a whole-words scan
wraps the string exactly when the pattern matches the whole string (the
right `\b` anchor fails at any proper prefix, the left anchor fails at
any interior position). -/
theorem replaceScan_allWord (ci : Bool) (t0 : Char) (ts hs he : List Char)
    (s : List Char) (hw : ∀ c ∈ s, isWordChar c = true) :
    replaceScan ci true t0 ts hs he none s =
      if (ciLeads ci (t0 :: ts) s && decide (s.length = ts.length + 1)) = true
      then hs ++ s ++ he else s := by
  cases s with
  | nil =>
      simp [replaceScan, ciLeads]
  | cons c rest =>
      have hc : isWordChar c = true := hw c (by simp)
      by_cases hcl : ciLeads ci (t0 :: ts) (c :: rest) = true
      · have hlen : ts.length + 1 ≤ rest.length + 1 := by
          have := ciLeads_length ci (t0 :: ts) (c :: rest) hcl
          simpa using this
        have hlastN : isWordOpt ((c :: rest.take ts.length)).getLast? = true := by
          refine isWordOpt_getLast?_allWord _ (by simp) ?_
          intro x hx
          refine hw x ?_
          have hE : (c :: rest.take ts.length) = (c :: rest).take (ts.length + 1) := by
            simp [List.take_succ_cons]
          rw [hE] at hx
          exact List.mem_of_mem_take hx
        by_cases heq : rest.length + 1 = ts.length + 1
        · have hdrop : (c :: rest).drop (ts.length + 1) = [] :=
            List.drop_eq_nil_of_le (by simp; omega)
          have htake : (c :: rest).take (ts.length + 1) = c :: rest :=
            List.take_of_length_le (by simp; omega)
          have hdropN : rest.drop ts.length = ([] : List Char) := by
            simpa using hdrop
          have hm : matchCond ci true t0 ts none (c :: rest) = true := by
            have hwoN : isWordOpt (none : Option Char) = false := rfl
            have hwoS : ∀ x : Char, isWordOpt (some x) = isWordChar x :=
              fun x => rfl
            simp [matchCond, hcl, boundaryB, hwoN, hwoS, hc, hdropN, hlastN]
          simp only [replaceScan]
          rw [if_pos hm, htake, hdrop]
          rw [if_pos (by simp [hcl, heq])]
          simp [replaceScan]
        · have hlt : ts.length + 1 < rest.length + 1 := by omega
          obtain ⟨d, rem, hdrop⟩ :
              ∃ d rem, (c :: rest).drop (ts.length + 1) = d :: rem := by
            cases hd : (c :: rest).drop (ts.length + 1) with
            | nil =>
                exfalso
                have := congrArg List.length hd
                simp [List.length_drop] at this
                omega
            | cons d rem => exact ⟨d, rem, rfl⟩
          have hdw : isWordChar d = true := by
            refine hw d (List.mem_of_mem_drop (n := ts.length + 1) ?_)
            rw [hdrop]
            simp
          have hdropN : rest.drop ts.length = d :: rem := by
            simpa using hdrop
          have hm : matchCond ci true t0 ts none (c :: rest) = false := by
            have hwoS : ∀ x : Char, isWordOpt (some x) = isWordChar x :=
              fun x => rfl
            simp [matchCond, boundaryB, hdropN, hwoS, hdw, hlastN]
          simp only [replaceScan]
          rw [if_neg (by simp [hm])]
          rw [replaceScan_wordPrev_id ci t0 ts hs he rest c
            (fun x hx => hw x (by simp [hx])) hc]
          rw [if_neg (by simp [heq])]
      · have hm : matchCond ci true t0 ts none (c :: rest) = false := by
          simp [matchCond, hcl]
        simp only [replaceScan]
        rw [if_neg (by simp [hm])]
        rw [replaceScan_wordPrev_id ci t0 ts hs he rest c
          (fun x hx => hw x (by simp [hx])) hc]
        rw [if_neg (by simp [hcl])]

/-- Matching a full literal pattern case-insensitively is exactly
case-insensitive equality of the two strings. -/
theorem ciLeads_and_length_eq (a : List Char) :
    ∀ b : List Char,
      (ciLeads true a b && decide (b.length = a.length)) = ciEqList a b := by
  induction a with
  | nil =>
      intro b
      cases b <;> simp [ciLeads, ciEqList]
  | cons x a' ih =>
      intro b
      cases b with
      | nil => simp [ciLeads, ciEqList]
      | cons y b' =>
          have hih := ih b'
          by_cases hxy : x.toLower = y.toLower
          · simp only [ciLeads, List.length_cons]
            rw [Bool.and_assoc]
            rw [show (decide (b'.length + 1 = a'.length + 1)) =
                (decide (b'.length = a'.length)) from by simp]
            rw [hih]
            simp [ciCharEq, ciEqList, hxy]
          · simp [ciLeads, ciCharEq, ciEqList, hxy]

/-- C9 (amended): when `wholeWords` is true the match anchors are the
regex `\b` word-character boundaries (ASCII letters, digits, and
underscore), not whitespace break points.  Consequently, on a text made
entirely of word characters the term is wrapped exactly when it equals
the whole text up to case — a term occurring as a proper substring
inside a larger run of word characters is never wrapped; in particular
`highlight("cats", "cat", {wholeWords: true})` returns `"cats"`
unchanged.  (Around non-word characters such as punctuation a term can
still be wrapped inside a whitespace-delimited token, as the recorded
counterexample shows.) -/
theorem highlightText_wholeWords_word_chars (t term : String)
    (hterm : term ≠ "") (hw : ∀ c ∈ t.data, isWordChar c = true) :
    highlightText (JInput.str t) (TermsArg.single term)
        ⟨none, none, none, some true⟩ =
      Except.ok (if ciEqList term.data t.data = true
        then (⟨"<mark>".data ++ t.data ++ "</mark>".data⟩ : String)
        else t) := by
  obtain ⟨t0, ts, hts⟩ : ∃ t0 ts, term.data = t0 :: ts := by
    cases htd : term.data with
    | nil =>
        exfalso
        apply hterm
        cases term with
        | mk d =>
            have hd : d = [] := htd
            rw [hd]
    | cons a b => exact ⟨a, b, rfl⟩
  show Except.ok (highlightCore t (TermsArg.single term)
      ⟨none, none, none, some true⟩) = _
  unfold highlightCore
  rw [if_neg (by simp [termsFalsy, termsEmptyArr, hterm])]
  simp only [termListOf, List.foldl_cons, List.foldl_nil, hstep, hts,
    Option.getD_some, Option.getD_none, Bool.not_false]
  rw [replaceScan_allWord true t0 ts "<mark>".data "</mark>".data t.data hw]
  have hlen : ts.length + 1 = term.data.length := by
    simp [hts]
  rw [hlen]
  rw [show (t0 :: ts) = term.data from hts.symm]
  rw [ciLeads_and_length_eq term.data t.data]
  rw [apply_ite (fun l : List Char => (Except.ok (⟨l⟩ : String) :
    Except HError String))]
  split <;> rfl

/-- C9 witness: the spec's example — "cats" consists of word characters
and is not case-insensitively equal to "cat", so nothing is wrapped. -/
theorem highlightText_wholeWords_word_chars_example :
    highlightText (JInput.str "cats") (TermsArg.single "cat")
        ⟨none, none, none, some true⟩ = Except.ok "cats" := by
  have h := highlightText_wholeWords_word_chars "cats" "cat" (by decide)
    (by decide)
  rw [h]
  decide
